import Mathlib

/-!
Shallow embedding of the imgproxy URL-generation library (url.go) and the
cryptographic primitives it calls (HMAC-SHA256 from the Go standard library,
base64 raw encodings), together with proofs of the specification claims.

Option maps (Go map[string]string) are modelled as association lists with
first-match lookup; Go map indexing, which yields the zero value "" for a
missing key, is modelled by mget.  Mutation of the option map inside
Generate is modelled by explicit state passing: Generate returns the final
map next to the produced URL.
-/

/-- An option map: Go map[string]string as an association list. -/
abbrev OptMap := List (String × String)

/-- Map lookup (first match). -/
def mlookup : OptMap → String → Option String
  | [], _ => none
  | (k, v) :: rest, key => if k = key then some v else mlookup rest key

/-- Go map indexing: opts[k] is "" when k is absent. -/
def mget (m : OptMap) (k : String) : String := (mlookup m k).getD ""

/-- Go delete(opts, k): remove the binding of k. -/
def merase (m : OptMap) (k : String) : OptMap := m.filter (fun e => !(e.1 == k))

/-- Keys of an association list are pairwise distinct (Go map invariant). -/
abbrev NodupKeys (m : OptMap) : Prop := (m.map Prod.fst).Nodup

/-- One entry of the allOptions registry table: a long name and a short code. -/
structure OptionDesc where
  long : String
  short : String
deriving DecidableEq, Repr

/-- The fixed registry table from url.go, in source order. -/
def allOptions : List OptionDesc :=
  [⟨"resize", "rs"⟩,
   ⟨"size", "s"⟩,
   ⟨"resizing_type", "rt"⟩,
   ⟨"resizing_algorithm", "ra"⟩,
   ⟨"width", "w"⟩,
   ⟨"height", "h"⟩,
   ⟨"min-width", "mw"⟩,
   ⟨"min-height", "mh"⟩,
   ⟨"zoom", "z"⟩,
   ⟨"dpr", "dpr"⟩,
   ⟨"enlarge", "el"⟩,
   ⟨"extend", "ex"⟩,
   ⟨"extend_aspect_ratio", "ea"⟩,
   ⟨"gravity", "g"⟩,
   ⟨"crop", "c"⟩,
   ⟨"trim", "t"⟩,
   ⟨"padding", "p"⟩,
   ⟨"auto_rotate", "ar"⟩,
   ⟨"rotate", "ro"⟩,
   ⟨"background", "bg"⟩,
   ⟨"background_alpha", "ba"⟩,
   ⟨"adjust", "ad"⟩,
   ⟨"brightness", "br"⟩,
   ⟨"contrast", "co"⟩,
   ⟨"saturation", "sa"⟩,
   ⟨"blur", "bl"⟩,
   ⟨"sharpen", "sh"⟩,
   ⟨"pixelate", "px"⟩,
   ⟨"unsharp_masking", "um"⟩,
   ⟨"blur_detections", "bd"⟩,
   ⟨"draw_detections", "dd"⟩,
   ⟨"gradient", "gr"⟩,
   ⟨"watermark", "wm"⟩,
   ⟨"watermark_url", "wu"⟩,
   ⟨"watermark_text", "wt"⟩,
   ⟨"watermark_size", "ws"⟩,
   ⟨"watermark_rotate", "wr"⟩,
   ⟨"watermark_shadow", "wsh"⟩,
   ⟨"style", "st"⟩,
   ⟨"strip_metadata", "sm"⟩,
   ⟨"keep_copyright", "kc"⟩,
   ⟨"dpi", "dpi"⟩,
   ⟨"strip_color_profile", "scp"⟩,
   ⟨"enforce_thumbnail", "et"⟩,
   ⟨"quality", "q"⟩,
   ⟨"format_quality", "fq"⟩,
   ⟨"autoquality", "aq"⟩,
   ⟨"max_bytes", "mb"⟩,
   ⟨"jpeg_options", "jpeg_options"⟩,
   ⟨"png_options", "png_options"⟩,
   ⟨"webp_options", "webp_options"⟩,
   ⟨"format", "f"⟩,
   ⟨"page", "page"⟩,
   ⟨"pages", "pages"⟩,
   ⟨"disable_animation", "da"⟩,
   ⟨"video_thumbnail_second", "vts"⟩,
   ⟨"video_thumbnail_keyframes", "vtk"⟩,
   ⟨"video_thumbnail_tile", "vtt"⟩,
   ⟨"fallback_image_url", "fi"⟩,
   ⟨"skip_processing", "sp"⟩,
   ⟨"raw", "raw"⟩,
   ⟨"cachebuster", "cb"⟩,
   ⟨"expires", "exp"⟩,
   ⟨"filename", "fn"⟩,
   ⟨"return_attachment", "ra"⟩,
   ⟨"preset", "pr"⟩,
   ⟨"hashsum", "hs"⟩,
   ⟨"max_src_resolution", "msr"⟩,
   ⟨"max_src_file_size", "msfs"⟩,
   ⟨"max_animation_frames", "maf"⟩,
   ⟨"max_animation_frame_resolution", "mafr"⟩]

/-- processOptionMap from url.go: builds the long-name to short-code map.
The long names in the table are pairwise distinct, so first-match lookup in
the association list agrees with Go map semantics. -/
def processOptionMap (opts : List OptionDesc) : OptMap :=
  opts.map (fun o => (o.long, o.short))

/-- The derived long-to-short alias map used by the leftover pass. -/
def optionMap : OptMap := processOptionMap allOptions

/-- The constant insecureSignature from url.go. -/
def insecureSignature : String := "insecure"

/-- The effective value of a descriptor: look the value up first by long
name then by short code (Go indexing turns an absent key into "", so an
empty value falls through to the short code). -/
def effOption (opts : OptMap) (o : OptionDesc) : String :=
  let v := mget opts o.long
  if v.length = 0 then mget opts o.short else v

/-- The deletions performed after a segment is emitted:
delete(opts, o.short); delete(opts, o.long). -/
def eraseDesc (opts : OptMap) (o : OptionDesc) : OptMap :=
  merase (merase opts o.short) o.long

/-- The registry-order loop of Generate: for each descriptor compute the
effective value; skip empty values; otherwise append the segment and
delete both keys. -/
def registryPass : List OptionDesc → String → OptMap → String × OptMap
  | [], options, opts => (options, opts)
  | o :: rest, options, opts =>
    let voption := effOption opts o
    if voption.length = 0 then
      registryPass rest options opts
    else
      registryPass rest (options ++ o.short ++ ":" ++ voption ++ "/")
        (eraseDesc opts o)

/-- The descriptors for which the registry pass of Generate emits a segment,
in emission order (a specification companion of registryPass that records
which branch the loop takes). -/
def matchedDescs : List OptionDesc → OptMap → List OptionDesc
  | [], _ => []
  | o :: rest, opts =>
    let voption := effOption opts o
    if voption.length = 0 then
      matchedDescs rest opts
    else
      o :: matchedDescs rest (eraseDesc opts o)

/-- Byte-wise lexicographic order on char lists: the order sort.Strings
uses (UTF-8 byte order and code-point order coincide). -/
def lexLe : List Char → List Char → Bool
  | [], _ => true
  | _ :: _, [] => false
  | a :: as, b :: bs =>
    if a.toNat < b.toNat then true
    else if b.toNat < a.toNat then false
    else lexLe as bs

/-- String order backing sort.Strings. -/
def strLeb (a b : String) : Bool := lexLe a.data b.data

/-- The proposition form of strLeb, used as the sorting relation. -/
def SLe (a b : String) : Prop := strLeb a b = true

instance : DecidableRel SLe := fun a b => by
  unfold SLe; infer_instance

/-- sort.Strings: sorting is modelled by insertion sort; on strings every
correct sort produces the same list, because the order is antisymmetric. -/
def sortStrings (l : List String) : List String := l.insertionSort SLe

/-- The leftover pass replaces a key by its short code when the alias map
knows it (Go: if len(short) > 0 then key = short). -/
def leftoverKey (key : String) : String :=
  let short := mget optionMap key
  if 0 < short.length then short else key

/-- One step of the leftover loop: options += key + ":" + opts[key] + "/",
where key has already been replaced by its alias and the value is looked up
under the replaced key. -/
def leftoverStep (opts : OptMap) (options key : String) : String :=
  let k := leftoverKey key
  options ++ k ++ ":" ++ mget opts k ++ "/"

/-- The full option-serialization part of Generate: the registry pass over
allOptions starting from "/", then the remaining keys in sorted order.
Returns the options path together with the final state of the map. -/
def canonicalize (opts : OptMap) : String × OptMap :=
  let p := registryPass allOptions "/" opts
  ((sortStrings (p.2.map Prod.fst)).foldl (leftoverStep p.2) p.1, p.2)

/-- The options path emitted by Generate for a given option map. -/
def optionsString (opts : OptMap) : String := (canonicalize opts).1

/-! ## Bytes, UTF-8 and base64 -/

/-- UTF-8 bytes of one character (Go []byte(string) encoding). -/
def utf8Char (c : Char) : List Nat :=
  let n := c.toNat
  if n < 128 then [n]
  else if n < 2048 then [192 + n / 64, 128 + n % 64]
  else if n < 65536 then [224 + n / 4096, 128 + n / 64 % 64, 128 + n % 64]
  else [240 + n / 262144, 128 + n / 4096 % 64, 128 + n / 64 % 64, 128 + n % 64]

/-- UTF-8 bytes of a string: Go []byte(s). -/
def utf8Bytes (s : String) : List Nat := (s.data.map utf8Char).flatten

/-- The standard base64 alphabet (encoding/base64 StdEncoding). -/
def b64StdAlphabet : List Char :=
  "ABCDEFGHIJKLMNOPQRSTUVWXYZabcdefghijklmnopqrstuvwxyz0123456789+/".data

/-- The URL-safe base64 alphabet (encoding/base64 URLEncoding). -/
def b64URLAlphabet : List Char :=
  "ABCDEFGHIJKLMNOPQRSTUVWXYZabcdefghijklmnopqrstuvwxyz0123456789-_".data

/-- Unpadded base64 encoding over a given alphabet (Raw encodings of Go's
encoding/base64: no padding characters). -/
def b64Chars (alpha : List Char) : List Nat → List Char
  | b1 :: b2 :: b3 :: rest =>
    alpha.getD (b1 / 4) ' ' ::
    alpha.getD (b1 % 4 * 16 + b2 / 16) ' ' ::
    alpha.getD (b2 % 16 * 4 + b3 / 64) ' ' ::
    alpha.getD (b3 % 64) ' ' :: b64Chars alpha rest
  | [b1, b2] =>
    [alpha.getD (b1 / 4) ' ',
     alpha.getD (b1 % 4 * 16 + b2 / 16) ' ',
     alpha.getD (b2 % 16 * 4) ' ']
  | [b1] =>
    [alpha.getD (b1 / 4) ' ', alpha.getD (b1 % 4 * 16) ' ']
  | [] => []

/-- base64.RawStdEncoding.EncodeToString. -/
def base64RawStd (bs : List Nat) : String := ⟨b64Chars b64StdAlphabet bs⟩

/-- base64.RawURLEncoding.EncodeToString. -/
def base64RawURL (bs : List Nat) : String := ⟨b64Chars b64URLAlphabet bs⟩

/-- Index of a character in a base64 alphabet. -/
def b64Index (alpha : List Char) (c : Char) : Nat :=
  match alpha with
  | [] => 0
  | a :: rest => if a = c then 0 else 1 + b64Index rest c

/-- Unpadded base64 decoding over a given alphabet. -/
def b64DecodeChars (alpha : List Char) : List Char → List Nat
  | c1 :: c2 :: c3 :: c4 :: rest =>
    (b64Index alpha c1 * 4 + b64Index alpha c2 / 16) ::
    (b64Index alpha c2 % 16 * 16 + b64Index alpha c3 / 4) ::
    (b64Index alpha c3 % 4 * 64 + b64Index alpha c4) :: b64DecodeChars alpha rest
  | [c1, c2, c3] =>
    [b64Index alpha c1 * 4 + b64Index alpha c2 / 16,
     b64Index alpha c2 % 16 * 16 + b64Index alpha c3 / 4]
  | [c1, c2] =>
    [b64Index alpha c1 * 4 + b64Index alpha c2 / 16]
  | _ => []

/-- Decoding of an unpadded URL-safe base64 string. -/
def base64URLDecode (s : String) : List Nat := b64DecodeChars b64URLAlphabet s.data

/-! ## SHA-256 and HMAC (crypto/sha256 and crypto/hmac) -/

/-- Truncation to a 32-bit word. -/
def w32 (x : Nat) : Nat := x % 4294967296

/-- 32-bit right rotation (input assumed reduced mod 2 to the 32). -/
def rotr (n x : Nat) : Nat := w32 (x >>> n ||| x <<< (32 - n))

/-- SHA-256 round constants. -/
def sha256K : List Nat :=
  [1116352408, 1899447441, 3049323471, 3921009573, 961987163, 1508970993,
   2453635748, 2870763221, 3624381080, 310598401, 607225278, 1426881987,
   1925078388, 2162078206, 2614888103, 3248222580, 3835390401, 4022224774,
   264347078, 604807628, 770255983, 1249150122, 1555081692, 1996064986,
   2554220882, 2821834349, 2952996808, 3210313671, 3336571891, 3584528711,
   113926993, 338241895, 666307205, 773529912, 1294757372, 1396182291,
   1695183700, 1986661051, 2177026350, 2456956037, 2730485921, 2820302411,
   3259730800, 3345764771, 3516065817, 3600352804, 4094571909, 275423344,
   430227734, 506948616, 659060556, 883997877, 958139571, 1322822218,
   1537002063, 1747873779, 1955562222, 2024104815, 2227730452, 2361852424,
   2428436474, 2756734187, 3204031479, 3329325298]

/-- The eight 32-bit working variables of SHA-256. -/
structure Sha256State where
  a : Nat
  b : Nat
  c : Nat
  d : Nat
  e : Nat
  f : Nat
  g : Nat
  h : Nat

/-- SHA-256 initial hash value. -/
def sha256Init : Sha256State :=
  ⟨1779033703, 3144134277, 1013904242, 2773480762,
   1359893119, 2600822924, 528734635, 1541459225⟩

/-- Big sigma 0. -/
def bigSigma0 (x : Nat) : Nat := rotr 2 x ^^^ rotr 13 x ^^^ rotr 22 x

/-- Big sigma 1. -/
def bigSigma1 (x : Nat) : Nat := rotr 6 x ^^^ rotr 11 x ^^^ rotr 25 x

/-- Small sigma 0. -/
def smallSigma0 (x : Nat) : Nat := rotr 7 x ^^^ rotr 18 x ^^^ (x >>> 3)

/-- Small sigma 1. -/
def smallSigma1 (x : Nat) : Nat := rotr 17 x ^^^ rotr 19 x ^^^ (x >>> 10)

/-- Choice function. -/
def sha256Ch (x y z : Nat) : Nat := (x &&& y) ^^^ ((x ^^^ 4294967295) &&& z)

/-- Majority function. -/
def sha256Maj (x y z : Nat) : Nat := (x &&& y) ^^^ (x &&& z) ^^^ (y &&& z)

/-- Big-endian 32-bit word at word index i of a byte block. -/
def word32At (block : List Nat) (i : Nat) : Nat :=
  block.getD (4 * i) 0 * 16777216 + block.getD (4 * i + 1) 0 * 65536 +
  block.getD (4 * i + 2) 0 * 256 + block.getD (4 * i + 3) 0

/-- The 16 message words of a 64-byte block. -/
def initWords (block : List Nat) : List Nat :=
  (List.range 16).map (word32At block)

/-- One extension step of the SHA-256 message schedule. -/
def scheduleStep (ws : List Nat) : List Nat :=
  let n := ws.length
  ws ++ [w32 (smallSigma1 (ws.getD (n - 2) 0) + ws.getD (n - 7) 0 +
              smallSigma0 (ws.getD (n - 15) 0) + ws.getD (n - 16) 0)]

/-- The full 64-word message schedule of a block. -/
def msgSchedule (block : List Nat) : List Nat :=
  scheduleStep^[48] (initWords block)

/-- One SHA-256 round. -/
def sha256Round (st : Sha256State) (k w : Nat) : Sha256State :=
  let t1 := w32 (st.h + bigSigma1 st.e + sha256Ch st.e st.f st.g + k + w)
  let t2 := w32 (bigSigma0 st.a + sha256Maj st.a st.b st.c)
  ⟨w32 (t1 + t2), st.a, st.b, st.c, w32 (st.d + t1), st.e, st.f, st.g⟩

/-- Compression of one 64-byte block. -/
def compressBlock (st : Sha256State) (block : List Nat) : Sha256State :=
  let ws := msgSchedule block
  let e := (sha256K.zip ws).foldl (fun s kw => sha256Round s kw.1 kw.2) st
  ⟨w32 (st.a + e.a), w32 (st.b + e.b), w32 (st.c + e.c), w32 (st.d + e.d),
   w32 (st.e + e.e), w32 (st.f + e.f), w32 (st.g + e.g), w32 (st.h + e.h)⟩

/-- Big-endian 64-bit length field of the SHA-256 padding. -/
def be64 (n : Nat) : List Nat :=
  [n / 72057594037927936 % 256, n / 281474976710656 % 256,
   n / 1099511627776 % 256, n / 4294967296 % 256,
   n / 16777216 % 256, n / 65536 % 256, n / 256 % 256, n % 256]

/-- SHA-256 message padding: a 1 bit, zeros, and the 64-bit bit length. -/
def sha256Pad (ms : List Nat) : List Nat :=
  let l := ms.length
  ms ++ 128 :: (List.replicate ((64 - (l + 9) % 64) % 64) 0 ++ be64 (8 * l))

/-- Iterated block compression (n is the number of 64-byte blocks). -/
def sha256Chunks : Nat → List Nat → Sha256State → Sha256State
  | 0, _, st => st
  | n + 1, ms, st => sha256Chunks n (ms.drop 64) (compressBlock st (ms.take 64))

/-- Big-endian serialization of one 32-bit word. -/
def be32Bytes (x : Nat) : List Nat :=
  [x / 16777216 % 256, x / 65536 % 256, x / 256 % 256, x % 256]

/-- Big-endian serialization of the final state: the 32-byte digest. -/
def stateBytes (st : Sha256State) : List Nat :=
  be32Bytes st.a ++ be32Bytes st.b ++ be32Bytes st.c ++ be32Bytes st.d ++
  be32Bytes st.e ++ be32Bytes st.f ++ be32Bytes st.g ++ be32Bytes st.h

/-- SHA-256 digest of a byte sequence (crypto/sha256 Sum256). -/
def sha256 (ms : List Nat) : List Nat :=
  let padded := sha256Pad ms
  stateBytes (sha256Chunks (padded.length / 64) padded sha256Init)

/-- HMAC key preparation: hash keys longer than the 64-byte block, then
zero-pad to the block size (crypto/hmac New). -/
def hmacKey (key : List Nat) : List Nat :=
  let k := if 64 < key.length then sha256 key else key
  k ++ List.replicate (64 - k.length) 0

/-- HMAC-SHA256 (crypto/hmac with crypto/sha256). -/
def hmacSha256 (key msg : List Nat) : List Nat :=
  let k := hmacKey key
  sha256 (k.map (fun b => b ^^^ 92) ++ sha256 (k.map (fun b => b ^^^ 54) ++ msg))

/-- The state of an hmac.New MAC object: the key and the bytes written so
far (Go's hash.Hash accumulates all written bytes before Sum). -/
structure MacState where
  key : List Nat
  written : List Nat

/-- hmac.New(sha256.New, key). -/
def hmacNew (key : List Nat) : MacState := ⟨key, []⟩

/-- Write on the MAC object.  The hash.Hash Write interface is fallible by
contract, but the SHA-256 writer never fails; the error branch is
represented but never produced. -/
def macWrite (st : MacState) (bs : List Nat) : Except Unit MacState :=
  Except.ok ⟨st.key, st.written ++ bs⟩

/-- Sum(nil) on the MAC object. -/
def macSum (st : MacState) : List Nat := hmacSha256 st.key st.written

/-- getSignatureHash from url.go: HMAC over the written salt and payload,
truncated to signatureSize bytes (Go slices the 32-byte digest, which for
signatureSize up to 32 is List.take), then unpadded URL-safe base64. -/
def getSignatureHash (key salt : List Nat) (signatureSize : Nat)
    (payload : String) : Except Unit String := do
  let signature := hmacNew key
  let signature ← macWrite signature salt
  let signature ← macWrite signature (utf8Bytes payload)
  return base64RawURL ((macSum signature).take signatureSize)

/-! ## Configuration and Generate -/

/-- Modelled from the spec: the configuration struct (base URL, signature
size, path-encoding flag) consumed by Generate lives outside the provided
sources; its fields follow the Configuration data model of the spec. -/
structure Config where
  baseURL : String
  signatureSize : Nat
  encodePath : Bool

/-- Modelled from the spec: the Imgproxy receiver carrying the
configuration and the signing key and salt byte sequences. -/
structure Imgproxy where
  cfg : Config
  key : List Nat
  salt : List Nat

/-- The source-path encoding step at the top of Generate. -/
def sourcePath (encodePath : Bool) (uri : String) : String :=
  if encodePath then base64RawStd (utf8Bytes uri) else "plain/" ++ uri

/-- Generate from url.go.  The returned pair carries the produced URL (or
the propagated signing error) and the final state of the option map, which
Generate mutates by deleting matched registry keys. -/
def Generate (i : Imgproxy) (opts : OptMap) (uri : String) :
    Except Unit String × OptMap :=
  let uri' := sourcePath i.cfg.encodePath uri
  let c := canonicalize opts
  let uriWithOptions := c.1 ++ uri'
  let result : Except Unit String :=
    if i.salt.length = 0 ∧ i.key.length = 0 then
      Except.ok (i.cfg.baseURL ++ insecureSignature ++ uriWithOptions)
    else
      match getSignatureHash i.key i.salt i.cfg.signatureSize uriWithOptions with
      | Except.ok signature => Except.ok (i.cfg.baseURL ++ signature ++ uriWithOptions)
      | Except.error e => Except.error e
  (result, c.2)

/-! ## Order lemmas for the string sort -/

theorem lexLe_refl : ∀ a : List Char, lexLe a a = true
  | [] => rfl
  | c :: cs => by simp [lexLe, lexLe_refl cs]

theorem lexLe_total : ∀ a b : List Char, lexLe a b = true ∨ lexLe b a = true
  | [], _ => Or.inl rfl
  | _ :: _, [] => Or.inr rfl
  | a :: as, b :: bs => by
    rcases Nat.lt_trichotomy a.toNat b.toNat with h | h | h
    · left; simp [lexLe, h]
    · have : a = b := Char.ext (UInt32.ext h)
      subst this
      rcases lexLe_total as bs with h2 | h2
      · left; simp [lexLe, h2]
      · right; simp [lexLe, h2]
    · right; simp [lexLe, h, Nat.lt_asymm h]

theorem lexLe_trans : ∀ a b c : List Char,
    lexLe a b = true → lexLe b c = true → lexLe a c = true
  | [], _, _, _, _ => rfl
  | _ :: _, [], _, h, _ => by simp [lexLe] at h
  | _ :: _, _ :: _, [], _, h => by simp [lexLe] at h
  | a :: as, b :: bs, c :: cs, hab, hbc => by
    simp only [lexLe] at hab hbc ⊢
    rcases Nat.lt_trichotomy a.toNat b.toNat with h1 | h1 | h1
    · rcases Nat.lt_trichotomy b.toNat c.toNat with h2 | h2 | h2
      · simp [Nat.lt_trans h1 h2]
      · simp [h2 ▸ h1]
      · simp [h1, Nat.lt_asymm h1] at hab
        simp [h2, Nat.lt_asymm h2] at hbc
    · rcases Nat.lt_trichotomy b.toNat c.toNat with h2 | h2 | h2
      · simp [h1 ▸ h2]
      · have hac : a.toNat = c.toNat := h1.trans h2
        simp [h1, Nat.lt_irrefl] at hab
        simp [h2, Nat.lt_irrefl] at hbc
        simp [hac, Nat.lt_irrefl, lexLe_trans as bs cs hab hbc]
      · simp [h2, Nat.lt_asymm h2] at hbc
    · simp [h1, Nat.lt_asymm h1] at hab

theorem lexLe_antisymm : ∀ a b : List Char,
    lexLe a b = true → lexLe b a = true → a = b
  | [], [], _, _ => rfl
  | [], _ :: _, _, h => by simp [lexLe] at h
  | _ :: _, [], h, _ => by simp [lexLe] at h
  | a :: as, b :: bs, hab, hba => by
    simp only [lexLe] at hab hba
    rcases Nat.lt_trichotomy a.toNat b.toNat with h1 | h1 | h1
    · simp [h1, Nat.lt_asymm h1] at hba
    · have : a = b := Char.ext (UInt32.ext h1)
      subst this
      simp [Nat.lt_irrefl] at hab hba
      simp [lexLe_antisymm as bs hab hba]
    · simp [h1, Nat.lt_asymm h1] at hab

instance : IsTotal String SLe :=
  ⟨fun a b => lexLe_total a.data b.data⟩

instance : IsTrans String SLe :=
  ⟨fun a b c => lexLe_trans a.data b.data c.data⟩

instance : IsAntisymm String SLe :=
  ⟨fun a b hab hba => by
    cases a; cases b
    exact congrArg String.mk (lexLe_antisymm _ _ hab hba)⟩

theorem sortStrings_perm (l : List String) : (sortStrings l).Perm l :=
  List.perm_insertionSort SLe l

theorem sortStrings_sorted (l : List String) : List.Sorted SLe (sortStrings l) :=
  List.sorted_insertionSort SLe l

theorem sortStrings_eq_of_perm {l₁ l₂ : List String} (h : l₁.Perm l₂) :
    sortStrings l₁ = sortStrings l₂ :=
  List.eq_of_perm_of_sorted
    (((sortStrings_perm l₁).trans h).trans (sortStrings_perm l₂).symm)
    (sortStrings_sorted l₁) (sortStrings_sorted l₂)

theorem mem_sortStrings {l : List String} {k : String} :
    k ∈ sortStrings l ↔ k ∈ l :=
  (sortStrings_perm l).mem_iff

/-! ## Map lemmas -/

theorem mlookup_filter (p : String → Bool) (l : OptMap) (k : String) :
    mlookup (l.filter (fun e => p e.1)) k
      = if p k then mlookup l k else none := by
  induction l with
  | nil => simp [mlookup]
  | cons hd tl ih =>
    by_cases hp : p hd.1 <;> by_cases hk : hd.1 = k
    · subst hk; simp [mlookup, hp]
    · simp [mlookup, hp, hk, ih]
    · subst hk; simp [mlookup, hp, ih]
    · simp [mlookup, hp, hk, ih]

theorem mlookup_merase (m : OptMap) (a k : String) :
    mlookup (merase m a) k = if k = a then none else mlookup m k := by
  have h := mlookup_filter (fun x => !(x == a)) m k
  simp only [merase]
  rw [h]
  by_cases hk : k = a <;> simp [hk]

theorem mget_merase (m : OptMap) (a k : String) :
    mget (merase m a) k = if k = a then "" else mget m k := by
  simp only [mget, mlookup_merase]
  by_cases hk : k = a <;> simp [hk]

theorem NodupKeys_filter (p : String × String → Bool) {m : OptMap}
    (h : NodupKeys m) : NodupKeys (m.filter p) :=
  ((List.filter_sublist m).map Prod.fst).nodup h

theorem NodupKeys_merase {m : OptMap} (a : String) (h : NodupKeys m) :
    NodupKeys (merase m a) :=
  NodupKeys_filter _ h

theorem merase_perm {l₁ l₂ : OptMap} (a : String) (h : l₁.Perm l₂) :
    (merase l₁ a).Perm (merase l₂ a) :=
  h.filter _

theorem mlookup_eq_filter_head (l : OptMap) (k : String) :
    mlookup l k = ((l.filter (fun e => e.1 == k)).head?).map Prod.snd := by
  induction l with
  | nil => simp [mlookup]
  | cons hd tl ih =>
    by_cases hk : hd.1 = k
    · subst hk; simp [mlookup, ih]
    · simp [mlookup, hk, ih]

theorem filter_key_length_le_one {l : OptMap} (k : String) (h : NodupKeys l) :
    (l.filter (fun e => e.1 == k)).length ≤ 1 := by
  induction l with
  | nil => simp
  | cons hd tl ih =>
    simp only [NodupKeys, List.map_cons, List.nodup_cons] at h
    by_cases hk : hd.1 = k
    · subst hk
      have : tl.filter (fun e => e.1 == hd.1) = [] := by
        rw [List.filter_eq_nil_iff]
        intro e he hbe
        exact h.1 (by
          simp only [beq_iff_eq] at hbe
          exact hbe ▸ List.mem_map_of_mem Prod.fst he)
      simp [this]
    · simp only [List.filter_cons, beq_iff_eq, hk, if_false]
      exact ih h.2

theorem perm_eq_of_length_le_one {l₁ l₂ : List (String × String)}
    (h : l₁.Perm l₂) (hl : l₁.length ≤ 1) : l₁ = l₂ := by
  match l₁, hl with
  | [], _ => simpa using h.symm.eq_nil
  | [a], _ => simpa using (List.perm_singleton.mp h.symm).symm

theorem mlookup_perm {l₁ l₂ : OptMap} (h : l₁.Perm l₂) (hn : NodupKeys l₁)
    (k : String) : mlookup l₁ k = mlookup l₂ k := by
  rw [mlookup_eq_filter_head, mlookup_eq_filter_head]
  rw [perm_eq_of_length_le_one (h.filter (fun e => e.1 == k))
    (filter_key_length_le_one k hn)]

theorem mget_perm {l₁ l₂ : OptMap} (h : l₁.Perm l₂) (hn : NodupKeys l₁)
    (k : String) : mget l₁ k = mget l₂ k := by
  simp [mget, mlookup_perm h hn k]

theorem mlookup_mem_keys {m : OptMap} {k : String} {v : String}
    (h : mlookup m k = some v) : k ∈ m.map Prod.fst := by
  induction m with
  | nil => simp [mlookup] at h
  | cons hd tl ih =>
    by_cases hk : hd.1 = k
    · subst hk; simp
    · simp only [mlookup, hk, if_false] at h
      simpa using Or.inr (ih h)

/-! ## String append helpers -/

theorem strEmpty_app (s : String) : "" ++ s = s := by
  apply String.ext; simp

theorem strApp_empty (s : String) : s ++ "" = s := by
  apply String.ext; simp

theorem strApp_assoc (a b c : String) : a ++ b ++ c = a ++ (b ++ c) := by
  apply String.ext; simp

/-! ## registryPass lemmas -/

theorem effOption_nil (o : OptionDesc) : effOption [] o = "" := by
  simp [effOption, mget, mlookup]

theorem registryPass_nil_map : ∀ (L : List OptionDesc) (acc : String),
    registryPass L acc [] = (acc, [])
  | [], _ => rfl
  | o :: rest, acc => by
    simp [registryPass, effOption_nil, registryPass_nil_map rest acc]

theorem matchedDescs_snd_filter : ∀ (L : List OptionDesc) (acc : String)
    (opts : OptMap),
    (registryPass L acc opts).2
      = opts.filter (fun e =>
          !((matchedDescs L opts).any (fun o => e.1 == o.long || e.1 == o.short)))
  | [], acc, opts => by simp [registryPass, matchedDescs]
  | o :: rest, acc, opts => by
    by_cases h : (effOption opts o).length = 0
    · simp only [registryPass, matchedDescs, h, if_true]
      exact matchedDescs_snd_filter rest acc opts
    · simp only [registryPass, matchedDescs, h, if_false]
      rw [matchedDescs_snd_filter rest _ (eraseDesc opts o)]
      simp only [eraseDesc, merase, List.filter_filter]
      apply List.filter_congr
      intro e _
      simp only [List.any_cons, Bool.not_or]
      cases h1 : (e.1 == o.long) <;> cases h2 : (e.1 == o.short) <;> simp

theorem mlookup_registryPass (L : List OptionDesc) (acc : String)
    (opts : OptMap) (k : String) :
    mlookup (registryPass L acc opts).2 k
      = if ((matchedDescs L opts).any (fun o => k == o.long || k == o.short))
        then none else mlookup opts k := by
  rw [matchedDescs_snd_filter L acc opts]
  have h := mlookup_filter
    (fun x => !((matchedDescs L opts).any (fun o => x == o.long || x == o.short)))
    opts k
  simp only at h
  rw [h]
  by_cases hk : (matchedDescs L opts).any (fun o => k == o.long || k == o.short)
    <;> simp [hk]

theorem matchedDescs_mem : ∀ {L : List OptionDesc} {opts : OptMap}
    {o : OptionDesc}, o ∈ matchedDescs L opts → o ∈ L := by
  intro L
  induction L with
  | nil => intro opts o h; simp [matchedDescs] at h
  | cons d rest ih =>
    intro opts o h
    by_cases hd : (effOption opts d).length = 0
    · simp only [matchedDescs, hd, if_true] at h
      exact List.mem_cons_of_mem d (ih h)
    · simp only [matchedDescs, hd, if_false, List.mem_cons] at h
      rcases h with h | h
      · exact h ▸ List.mem_cons_self d rest
      · exact List.mem_cons_of_mem d (ih h)

theorem mget_eraseDesc_of_empty {opts : OptMap} {x : String}
    (o : OptionDesc) (h : mget opts x = "") : mget (eraseDesc opts o) x = "" := by
  simp only [eraseDesc, mget_merase]
  split_ifs <;> simp [h]

theorem matchedDescs_ne_empty : ∀ {L : List OptionDesc} {opts : OptMap}
    {o : OptionDesc}, o ∈ matchedDescs L opts →
    ¬(mget opts o.long = "" ∧ mget opts o.short = "") := by
  intro L
  induction L with
  | nil => intro opts o h; simp [matchedDescs] at h
  | cons d rest ih =>
    intro opts o h hc
    by_cases hd : (effOption opts d).length = 0
    · simp only [matchedDescs, hd, if_true] at h
      exact ih h hc
    · simp only [matchedDescs, hd, if_false, List.mem_cons] at h
      rcases h with rfl | h
      · apply hd
        simp [effOption, hc.1, hc.2]
      · exact ih h ⟨mget_eraseDesc_of_empty d hc.1, mget_eraseDesc_of_empty d hc.2⟩

theorem registryPass_nodup : ∀ (L : List OptionDesc) (acc : String)
    {opts : OptMap}, NodupKeys opts → NodupKeys (registryPass L acc opts).2
  | [], _, _, h => h
  | o :: rest, acc, opts, h => by
    by_cases hd : (effOption opts o).length = 0
    · simp only [registryPass, hd, if_true]
      exact registryPass_nodup rest acc h
    · simp only [registryPass, hd, if_false]
      exact registryPass_nodup rest _
        (NodupKeys_merase _ (NodupKeys_merase _ h))

theorem effOption_perm {l₁ l₂ : OptMap} (h : l₁.Perm l₂) (hn : NodupKeys l₁)
    (o : OptionDesc) : effOption l₁ o = effOption l₂ o := by
  simp [effOption, mget_perm h hn]

theorem eraseDesc_perm {l₁ l₂ : OptMap} (o : OptionDesc) (h : l₁.Perm l₂) :
    (eraseDesc l₁ o).Perm (eraseDesc l₂ o) :=
  merase_perm _ (merase_perm _ h)

theorem registryPass_perm : ∀ (L : List OptionDesc) (acc : String)
    {l₁ l₂ : OptMap}, l₁.Perm l₂ → NodupKeys l₁ →
    (registryPass L acc l₁).1 = (registryPass L acc l₂).1 ∧
      (registryPass L acc l₁).2.Perm (registryPass L acc l₂).2
  | [], acc, l₁, l₂, h, _ => ⟨rfl, h⟩
  | o :: rest, acc, l₁, l₂, h, hn => by
    have he := effOption_perm h hn o
    by_cases hd : (effOption l₁ o).length = 0
    · simp only [registryPass, hd, he ▸ hd, if_true]
      exact registryPass_perm rest acc h hn
    · simp only [registryPass, hd, he ▸ hd, if_false, he]
      exact registryPass_perm rest _ (eraseDesc_perm o h)
        (NodupKeys_merase _ (NodupKeys_merase _ hn))

theorem foldl_leftoverStep_acc : ∀ (ks : List String) (m : OptMap)
    (acc : String),
    ks.foldl (leftoverStep m) acc = acc ++ ks.foldl (leftoverStep m) ""
  | [], m, acc => by simp [strApp_empty]
  | a :: ks, m, acc => by
    simp only [List.foldl_cons]
    rw [foldl_leftoverStep_acc ks m (leftoverStep m acc a),
      foldl_leftoverStep_acc ks m (leftoverStep m "" a)]
    simp only [leftoverStep, strEmpty_app, strApp_assoc]

theorem canonicalize_perm {l₁ l₂ : OptMap} (h : l₁.Perm l₂)
    (hn : NodupKeys l₁) :
    (canonicalize l₁).1 = (canonicalize l₂).1 ∧
      (canonicalize l₁).2.Perm (canonicalize l₂).2 := by
  have hr := registryPass_perm allOptions "/" h hn
  have hn1 : NodupKeys (registryPass allOptions "/" l₁).2 :=
    registryPass_nodup allOptions "/" hn
  have hkeys : sortStrings ((registryPass allOptions "/" l₁).2.map Prod.fst)
      = sortStrings ((registryPass allOptions "/" l₂).2.map Prod.fst) :=
    sortStrings_eq_of_perm (hr.2.map Prod.fst)
  have hstep : leftoverStep (registryPass allOptions "/" l₁).2
      = leftoverStep (registryPass allOptions "/" l₂).2 := by
    funext acc k
    simp [leftoverStep, mget_perm hr.2 hn1]
  constructor
  · simp only [canonicalize]
    rw [hkeys, hstep, hr.1]
  · exact hr.2

/-! ## base64 lemmas -/

theorem b64URLIndex_getD : ∀ i, i < 64 →
    b64Index b64URLAlphabet (b64URLAlphabet.getD i ' ') = i := by decide

theorem b64_decode_encode (alpha : List Char)
    (hIdx : ∀ i, i < 64 → b64Index alpha (alpha.getD i ' ') = i) :
    ∀ bs : List Nat, (∀ b ∈ bs, b < 256) →
    b64DecodeChars alpha (b64Chars alpha bs) = bs
  | [], _ => rfl
  | [b1], h => by
    have hb1 : b1 < 256 := h b1 (by simp)
    simp only [b64Chars, b64DecodeChars]
    rw [hIdx (b1 / 4) (by omega), hIdx (b1 % 4 * 16) (by omega)]
    simp only [List.cons.injEq, and_true]
    omega
  | [b1, b2], h => by
    have hb1 : b1 < 256 := h b1 (by simp)
    have hb2 : b2 < 256 := h b2 (by simp)
    simp only [b64Chars, b64DecodeChars]
    rw [hIdx (b1 / 4) (by omega), hIdx (b1 % 4 * 16 + b2 / 16) (by omega),
      hIdx (b2 % 16 * 4) (by omega)]
    simp only [List.cons.injEq, and_true]
    refine ⟨by omega, by omega⟩
  | b1 :: b2 :: b3 :: rest, h => by
    have ih := b64_decode_encode alpha hIdx rest (fun b hb => h b (by simp [hb]))
    have hb1 : b1 < 256 := h b1 (by simp)
    have hb2 : b2 < 256 := h b2 (by simp)
    have hb3 : b3 < 256 := h b3 (by simp)
    simp only [b64Chars, b64DecodeChars]
    rw [hIdx (b1 / 4) (by omega), hIdx (b1 % 4 * 16 + b2 / 16) (by omega),
      hIdx (b2 % 16 * 4 + b3 / 64) (by omega), hIdx (b3 % 64) (by omega)]
    simp only [List.cons.injEq]
    exact ⟨by omega, by omega, by omega, ih⟩

theorem base64URL_roundtrip (bs : List Nat) (h : ∀ b ∈ bs, b < 256) :
    base64URLDecode (base64RawURL bs) = bs := by
  simp only [base64URLDecode, base64RawURL]
  exact b64_decode_encode b64URLAlphabet b64URLIndex_getD bs h

/-! ## Digest shape lemmas -/

theorem be32Bytes_lt (x : Nat) : ∀ b ∈ be32Bytes x, b < 256 := by
  intro b hb
  simp only [be32Bytes, List.mem_cons, List.not_mem_nil, or_false] at hb
  rcases hb with rfl | rfl | rfl | rfl <;> omega

theorem stateBytes_lt (st : Sha256State) : ∀ b ∈ stateBytes st, b < 256 := by
  intro b hb
  simp only [stateBytes, List.mem_append] at hb
  rcases hb with (((((((h | h) | h) | h) | h) | h) | h) | h) <;>
    exact be32Bytes_lt _ _ h

theorem sha256_lt (ms : List Nat) : ∀ b ∈ sha256 ms, b < 256 := by
  intro b hb
  simp only [sha256] at hb
  exact stateBytes_lt _ _ hb

theorem hmacSha256_lt (k m : List Nat) : ∀ b ∈ hmacSha256 k m, b < 256 := by
  intro b hb
  simp only [hmacSha256] at hb
  exact sha256_lt _ _ hb

theorem stateBytes_length (st : Sha256State) : (stateBytes st).length = 32 := by
  simp [stateBytes, be32Bytes]

theorem sha256_length (ms : List Nat) : (sha256 ms).length = 32 := by
  simp only [sha256]
  exact stateBytes_length _

theorem hmacSha256_length (k m : List Nat) : (hmacSha256 k m).length = 32 := by
  simp only [hmacSha256]
  exact sha256_length _

/-! ## getSignatureHash lemmas -/

theorem getSignatureHash_eq (key salt : List Nat) (n : Nat) (payload : String) :
    getSignatureHash key salt n payload
      = Except.ok (base64RawURL
          ((hmacSha256 key (salt ++ utf8Bytes payload)).take n)) := rfl

theorem getSignatureHash_decoded_length (key salt : List Nat) (n : Nat)
    (payload : String) (hn : n ≤ 32) :
    (base64URLDecode (base64RawURL
      ((hmacSha256 key (salt ++ utf8Bytes payload)).take n))).length = n := by
  rw [base64URL_roundtrip _
    (fun b hb => hmacSha256_lt _ _ b (List.mem_of_mem_take hb))]
  rw [List.length_take, hmacSha256_length]
  omega

/-! ## Singleton-map and survival lemmas -/

theorem strLen_zero (s : String) : s.length = 0 ↔ s = "" := by
  cases s with
  | mk l => simp [String.length, String.ext_iff, List.length_eq_zero]

theorem mget_singleton (k v x : String) :
    mget [(k, v)] x = if k = x then v else "" := by
  simp only [mget, mlookup]
  split_ifs <;> simp

theorem eraseDesc_singleton {k : String} (v : String) (d : OptionDesc)
    (h : k = d.long ∨ k = d.short) : eraseDesc [(k, v)] d = [] := by
  by_cases hs : k = d.short
  · simp [eraseDesc, merase, hs]
  · rcases h with h | h
    · simp [eraseDesc, merase, hs, h]
    · exact absurd h hs

theorem effOption_singleton_found {k : String} (v : String) (d : OptionDesc)
    (hv : v ≠ "") (h : k = d.long ∨ k = d.short) :
    effOption [(k, v)] d = v := by
  have hvl : ¬v.length = 0 := fun hc => hv ((strLen_zero v).mp hc)
  by_cases hl : k = d.long
  · simp only [effOption, mget_singleton]
    rw [if_pos hl, if_neg hvl]
  · rcases h with h | h
    · exact absurd h hl
    · simp only [effOption, mget_singleton]
      rw [if_neg hl, if_pos h, if_pos (by simp)]

theorem effOption_singleton_not_found {k : String} (v : String) (d : OptionDesc)
    (hl : k ≠ d.long) (hs : k ≠ d.short) :
    effOption [(k, v)] d = "" := by
  simp [effOption, mget_singleton, hl, hs]

theorem registryPass_singleton_found : ∀ (L : List OptionDesc) (acc : String)
    {k v : String}, v ≠ "" → ∀ {o : OptionDesc},
    L.find? (fun e => k == e.long || k == e.short) = some o →
    registryPass L acc [(k, v)] = (acc ++ o.short ++ ":" ++ v ++ "/", [])
  | [], _, _, _, _, _, hfind => by simp [List.find?] at hfind
  | d :: rest, acc, k, v, hv, o, hfind => by
    by_cases hp : (k == d.long || k == d.short) = true
    · rw [List.find?_cons_of_pos rest hp] at hfind
      injection hfind with ho
      subst ho
      have hd : k = d.long ∨ k = d.short := by
        rcases Bool.or_eq_true_iff.mp hp with h | h
        · exact Or.inl (by simpa using h)
        · exact Or.inr (by simpa using h)
      have heff := effOption_singleton_found v d hv hd
      simp only [registryPass, heff]
      rw [if_neg (fun hc => hv ((strLen_zero v).mp hc))]
      rw [eraseDesc_singleton v d hd]
      exact registryPass_nil_map rest _
    · rw [List.find?_cons_of_neg rest hp] at hfind
      have hl : k ≠ d.long := by
        intro hc; exact hp (by simp [hc])
      have hs : k ≠ d.short := by
        intro hc; exact hp (by simp [hc])
      simp only [registryPass, effOption_singleton_not_found v d hl hs]
      rw [if_pos (by simp)]
      exact registryPass_singleton_found rest acc hv hfind

theorem optionsString_singleton_found {k v : String} (hv : v ≠ "")
    {o : OptionDesc}
    (hfind : allOptions.find? (fun e => k == e.long || k == e.short) = some o) :
    optionsString [(k, v)] = "/" ++ o.short ++ ":" ++ v ++ "/" := by
  simp only [optionsString, canonicalize,
    registryPass_singleton_found allOptions "/" hv hfind]
  rfl

theorem mlookup_processOptionMap {l : List OptionDesc} {k s : String}
    (h : mlookup (processOptionMap l) k = some s) :
    ∃ o ∈ l, o.long = k ∧ o.short = s := by
  induction l with
  | nil => simp [processOptionMap, mlookup] at h
  | cons d rest ih =>
    simp only [processOptionMap, List.map_cons, mlookup] at h
    by_cases hd : d.long = k
    · rw [if_pos hd] at h
      injection h with hs
      exact ⟨d, List.mem_cons_self d rest, hd, hs⟩
    · rw [if_neg hd] at h
      obtain ⟨o, ho, h1, h2⟩ := ih h
      exact ⟨o, List.mem_cons_of_mem d ho, h1, h2⟩

theorem matched_any_false (opts : OptMap) {k : String}
    (h : ∀ o ∈ matchedDescs allOptions opts, o.long ≠ k ∧ o.short ≠ k) :
    ((matchedDescs allOptions opts).any
      (fun o => k == o.long || k == o.short)) = false := by
  rw [List.any_eq_false]
  intro o ho
  have := h o ho
  simp [Ne.symm this.1, Ne.symm this.2]

theorem unmatched_any_false (opts : OptMap) {k : String}
    (h : ∀ o ∈ allOptions, o.long ≠ k ∧ o.short ≠ k) :
    ((matchedDescs allOptions opts).any
      (fun o => k == o.long || k == o.short)) = false :=
  matched_any_false opts (fun o ho => h o (matchedDescs_mem ho))

theorem mget_registryPass (L : List OptionDesc) (acc : String)
    (opts : OptMap) (k : String) :
    mget (registryPass L acc opts).2 k
      = if ((matchedDescs L opts).any (fun o => k == o.long || k == o.short))
        then "" else mget opts k := by
  simp only [mget, mlookup_registryPass L acc opts k]
  split_ifs <;> simp

/-! ## Claim theorems -/

/-- Claim C1: for every key, salt, signatureSizeBytes between 0 and 32, and
every payload, getSignatureHash returns (without error) the unpadded
URL-safe base64 encoding of the first signatureSizeBytes bytes of
HMAC-SHA256 over salt followed by the payload bytes, and the decoded
signature has exactly signatureSizeBytes bytes. -/
theorem claim_C1 (key salt : List Nat) (n : Nat) (payload : String)
    (hn : n ≤ 32) :
    getSignatureHash key salt n payload
      = Except.ok (base64RawURL
          ((hmacSha256 key (salt ++ utf8Bytes payload)).take n)) ∧
    (base64URLDecode (base64RawURL
      ((hmacSha256 key (salt ++ utf8Bytes payload)).take n))).length = n :=
  ⟨getSignatureHash_eq key salt n payload,
   getSignatureHash_decoded_length key salt n payload hn⟩

/-- Witness for C1 at key "key", salt byte 115, size 3, payload "p". -/
theorem claim_C1_witness :
    (3 : Nat) ≤ 32 ∧
    (getSignatureHash [107, 101, 121] [115] 3 "p"
      = Except.ok (base64RawURL
          ((hmacSha256 [107, 101, 121] ([115] ++ utf8Bytes "p")).take 3)) ∧
    (base64URLDecode (base64RawURL
      ((hmacSha256 [107, 101, 121] ([115] ++ utf8Bytes "p")).take 3))).length
        = 3) :=
  ⟨by decide, claim_C1 [107, 101, 121] [115] 3 "p" (by decide)⟩

/-- Claim C2: with empty key and empty salt, Generate returns the literal
insecure signature segment and no error, for every option set and uri. -/
theorem claim_C2 (i : Imgproxy) (opts : OptMap) (uri : String)
    (hk : i.key = []) (hs : i.salt = []) :
    (Generate i opts uri).1
      = Except.ok (i.cfg.baseURL ++ insecureSignature ++
          (optionsString opts ++ sourcePath i.cfg.encodePath uri)) := by
  simp [Generate, hk, hs, optionsString]

/-- Witness for C2 at a concrete configuration and option set. -/
theorem claim_C2_witness :
    (Generate ⟨⟨"b/", 32, true⟩, [], []⟩ [("width", "9")] "u").1
      = Except.ok ("b/" ++ insecureSignature ++
          (optionsString [("width", "9")] ++ sourcePath true "u")) :=
  claim_C2 ⟨⟨"b/", 32, true⟩, [], []⟩ [("width", "9")] "u" rfl rfl

/-- Claim C3: with encode mode on, the source path is the unpadded
standard-alphabet base64 of the uri bytes (the third conjunct exercises a
character where the standard and URL-safe alphabets differ), and the
concrete scenario-1 URL is produced. -/
theorem claim_C3 :
    (∀ uri : String, sourcePath true uri = base64RawStd (utf8Bytes uri)) ∧
    sourcePath true "࿿" = "4L+/" ∧
    (Generate ⟨⟨"https://img.example.com/", 32, true⟩, [], []⟩ []
        "http://example.com/image.jpg").1
      = Except.ok
          "https://img.example.com/insecure/aHR0cDovL2V4YW1wbGUuY29tL2ltYWdlLmpwZw" :=
  ⟨fun _ => rfl, by decide, by rfl⟩

/-- Claim C4: Generate depends only on the contents of the option map, not
on insertion order: permuted maps with distinct keys produce the same URL;
and the width/height pair always yields the registry-ordered path. -/
theorem claim_C4 :
    (∀ (i : Imgproxy) (uri : String) (l₁ l₂ : OptMap), l₁.Perm l₂ →
      NodupKeys l₁ → (Generate i l₁ uri).1 = (Generate i l₂ uri).1) ∧
    optionsString [("width", "100"), ("height", "50")] = "/w:100/h:50/" ∧
    optionsString [("height", "50"), ("width", "100")] = "/w:100/h:50/" := by
  refine ⟨?_, by decide, by decide⟩
  intro i uri l₁ l₂ hp hn
  have hc := canonicalize_perm hp hn
  simp only [Generate]
  rw [hc.1]

/-- Witness for C4 at a concrete permuted pair of option maps. -/
theorem claim_C4_witness :
    (Generate ⟨⟨"b/", 3, true⟩, [], []⟩ [("width", "1"), ("g", "ce")] "u").1
      = (Generate ⟨⟨"b/", 3, true⟩, [], []⟩ [("g", "ce"), ("width", "1")] "u").1 :=
  claim_C4.1 ⟨⟨"b/", 3, true⟩, [], []⟩ "u" [("width", "1"), ("g", "ce")]
    [("g", "ce"), ("width", "1")] (by decide) (by decide)

/-- Claim C5: the options path is the registry-pass output followed by the
leftover segments; the leftover keys are sorted ascending; keys matching no
registry descriptor survive the registry pass and appear among the sorted
leftover keys; concretely customtag is emitted after w. -/
theorem claim_C5 :
    (∀ opts : OptMap,
      optionsString opts
        = (registryPass allOptions "/" opts).1 ++
          (sortStrings ((registryPass allOptions "/" opts).2.map Prod.fst)).foldl
            (leftoverStep (registryPass allOptions "/" opts).2) "" ∧
      List.Sorted SLe
        (sortStrings ((registryPass allOptions "/" opts).2.map Prod.fst)) ∧
      ∀ k : String, (∀ o ∈ allOptions, o.long ≠ k ∧ o.short ≠ k) →
        mlookup (registryPass allOptions "/" opts).2 k = mlookup opts k ∧
        ∀ v : String, mlookup opts k = some v →
          k ∈ sortStrings ((registryPass allOptions "/" opts).2.map Prod.fst)) ∧
    optionsString [("customtag", "abc"), ("width", "10")]
      = "/w:10/customtag:abc/" := by
  refine ⟨fun opts => ⟨?_, sortStrings_sorted _, ?_⟩, by decide⟩
  · simp only [optionsString, canonicalize]
    exact foldl_leftoverStep_acc _ _ _
  · intro k hk
    have hany := unmatched_any_false opts hk
    have hsur : mlookup (registryPass allOptions "/" opts).2 k = mlookup opts k := by
      rw [mlookup_registryPass allOptions "/" opts k, hany]
      simp
    refine ⟨hsur, fun v hv => ?_⟩
    rw [mem_sortStrings]
    exact mlookup_mem_keys (hsur.trans hv)

/-- Witness for C5 at the unregistered key customtag. -/
theorem claim_C5_witness :
    mlookup (registryPass allOptions "/" [("customtag", "abc")]).2 "customtag"
      = mlookup [("customtag", "abc")] "customtag" ∧
    ∀ v : String, mlookup [("customtag", "abc")] "customtag" = some v →
      "customtag" ∈ sortStrings
        ((registryPass allOptions "/" [("customtag", "abc")]).2.map Prod.fst) :=
  (claim_C5.1 [("customtag", "abc")]).2.2 "customtag" (by decide)

/-- Claim C6 as stated is false: an empty-valued key whose short-code alias
holds a non-empty value is deleted by the registry pass (the alias match
deletes both keys), so it neither survives nor reaches the leftover pass;
witnessed by the map width to "" and w to "5" at the key width. -/
theorem claim_C6_counterexample :
    ¬ (∀ (opts : OptMap) (k : String), mlookup opts k = some "" →
        mlookup (registryPass allOptions "/" opts).2 k = some "" ∧
        k ∈ sortStrings ((registryPass allOptions "/" opts).2.map Prod.fst)) := by
  intro h
  have hc := (h [("width", ""), ("w", "5")] "width" (by decide)).1
  exact absurd hc (by decide)

/-- Claim C6 amended: an entry bound to the empty string survives the
registry pass (no matched descriptor touches its key), still sits among the
sorted leftover keys, and its leftover segment carries the empty value --
provided every registry descriptor whose long name or short code equals the
key has empty values under both of its keys. -/
theorem claim_C6_amended (opts : OptMap) (k : String)
    (hk : mlookup opts k = some "")
    (halias : ∀ o ∈ allOptions, o.long = k ∨ o.short = k →
      mget opts o.long = "" ∧ mget opts o.short = "") :
    (∀ o ∈ matchedDescs allOptions opts, o.long ≠ k ∧ o.short ≠ k) ∧
    mlookup (registryPass allOptions "/" opts).2 k = some "" ∧
    k ∈ sortStrings ((registryPass allOptions "/" opts).2.map Prod.fst) ∧
    mget (registryPass allOptions "/" opts).2 (leftoverKey k) = "" := by
  have hmatch : ∀ o ∈ matchedDescs allOptions opts, o.long ≠ k ∧ o.short ≠ k := by
    intro o ho
    constructor
    · intro he
      exact matchedDescs_ne_empty ho (halias o (matchedDescs_mem ho) (Or.inl he))
    · intro he
      exact matchedDescs_ne_empty ho (halias o (matchedDescs_mem ho) (Or.inr he))
  have hany := matched_any_false opts hmatch
  have hsur : mlookup (registryPass allOptions "/" opts).2 k = some "" := by
    rw [mlookup_registryPass allOptions "/" opts k, hany]
    simpa using hk
  refine ⟨hmatch, hsur, ?_, ?_⟩
  · rw [mem_sortStrings]
    exact mlookup_mem_keys hsur
  · cases hlk : mlookup optionMap k with
    | none =>
      have hlid : leftoverKey k = k := by
        simp [leftoverKey, mget, hlk]
      rw [hlid, mget_registryPass allOptions "/" opts k, hany]
      simp [mget, hk]
    | some s =>
      obtain ⟨o, ho, hol, hos⟩ := mlookup_processOptionMap hlk
      by_cases hs0 : 0 < s.length
      · have hlid : leftoverKey k = s := by
          simp [leftoverKey, mget, hlk, hs0]
        have hvs : mget opts s = "" := by
          rw [← hos]
          exact (halias o ho (Or.inl hol)).2
        rw [hlid, mget_registryPass allOptions "/" opts s]
        split_ifs with hifs
        · rfl
        · exact hvs
      · have hlid : leftoverKey k = k := by
          simp [leftoverKey, mget, hlk, hs0]
        rw [hlid, mget_registryPass allOptions "/" opts k, hany]
        simp [mget, hk]

/-- Witness for the amended C6 at the map binding width to "". -/
theorem claim_C6_amended_witness :
    (∀ o ∈ matchedDescs allOptions [("width", "")], o.long ≠ "width" ∧
      o.short ≠ "width") ∧
    mlookup (registryPass allOptions "/" [("width", "")]).2 "width" = some "" ∧
    "width" ∈ sortStrings
      ((registryPass allOptions "/" [("width", "")]).2.map Prod.fst) ∧
    mget (registryPass allOptions "/" [("width", "")]).2 (leftoverKey "width")
      = "" :=
  claim_C6_amended [("width", "")] "width" (by decide) (by decide)

/-- Claim C7 as stated is false: no registry descriptor pairs the long name
resize with the short code ra (resize is paired with rs). -/
theorem claim_C7_counterexample :
    ¬ ((∃ o ∈ allOptions, o.long = "resize" ∧ o.short = "ra") ∧
       (∃ o ∈ allOptions, o.long = "return_attachment" ∧ o.short = "ra")) := by
  decide

/-- Claim C7 amended: the short code ra is assigned to both the descriptor
with long name resizing_algorithm and the one with long name
return_attachment; resize itself carries the short code rs. -/
theorem claim_C7 :
    (⟨"resizing_algorithm", "ra"⟩ : OptionDesc) ∈ allOptions ∧
    (⟨"return_attachment", "ra"⟩ : OptionDesc) ∈ allOptions ∧
    (⟨"resize", "rs"⟩ : OptionDesc) ∈ allOptions := by
  decide

/-- The first registry descriptor matching a long name or a short code of
the table carries the same short code as the descriptor it aliases
(checked over the whole table). -/
theorem allOptions_find_short : ∀ o ∈ allOptions,
    ((allOptions.find? (fun e => o.long == e.long || o.long == e.short)).map
      OptionDesc.short = some o.short) ∧
    ((allOptions.find? (fun e => o.short == e.long || o.short == e.short)).map
      OptionDesc.short = some o.short) := by
  decide

/-- Claim C8: for every registry descriptor and non-empty value, a
singleton option set keyed by the long name and one keyed by the short code
produce the identical options path, whose single segment is short:value. -/
theorem claim_C8 : ∀ o ∈ allOptions, ∀ v : String, v ≠ "" →
    optionsString [(o.long, v)] = "/" ++ o.short ++ ":" ++ v ++ "/" ∧
    optionsString [(o.short, v)] = "/" ++ o.short ++ ":" ++ v ++ "/" := by
  intro o ho v hv
  have hfact := allOptions_find_short o ho
  constructor
  · cases hff : allOptions.find? (fun e => o.long == e.long || o.long == e.short) with
    | none =>
      rw [hff] at hfact
      simpa using hfact.1
    | some e =>
      have he : e.short = o.short := by
        rw [hff] at hfact
        simpa using hfact.1
      rw [optionsString_singleton_found hv hff, he]
  · cases hff : allOptions.find? (fun e => o.short == e.long || o.short == e.short) with
    | none =>
      rw [hff] at hfact
      simpa using hfact.2
    | some e =>
      have he : e.short = o.short := by
        rw [hff] at hfact
        simpa using hfact.2
      rw [optionsString_singleton_found hv hff, he]

/-- Witness for C8 at the width descriptor with value 9. -/
theorem claim_C8_witness :
    optionsString [("width", "9")] = "/" ++ "w" ++ ":" ++ "9" ++ "/" ∧
    optionsString [("w", "9")] = "/" ++ "w" ++ ":" ++ "9" ++ "/" :=
  claim_C8 ⟨"width", "w"⟩ (by decide) "9" (by decide)

/-- Claim C9: when exactly one of key and salt is non-empty, Generate takes
the signing branch: it returns no error and embeds the URL-safe base64 of
the truncated HMAC, computed with the empty component as a zero-length byte
sequence, never the insecure placeholder. -/
theorem claim_C9 (i : Imgproxy) (opts : OptMap) (uri : String)
    (h : (i.key = [] ∧ i.salt ≠ []) ∨ (i.key ≠ [] ∧ i.salt = [])) :
    (Generate i opts uri).1
      = Except.ok (i.cfg.baseURL ++
          base64RawURL ((hmacSha256 i.key (i.salt ++
            utf8Bytes (optionsString opts ++ sourcePath i.cfg.encodePath uri))).take
            i.cfg.signatureSize) ++
          (optionsString opts ++ sourcePath i.cfg.encodePath uri)) := by
  have hcond : ¬ (i.salt.length = 0 ∧ i.key.length = 0) := by
    rcases h with ⟨h1, h2⟩ | ⟨h1, h2⟩
    · intro hc
      exact h2 (List.length_eq_zero.mp hc.1)
    · intro hc
      exact h1 (List.length_eq_zero.mp hc.2)
  simp only [Generate, hcond, if_false, getSignatureHash_eq, optionsString]

/-- Witness for C9 with a one-byte key and empty salt. -/
theorem claim_C9_witness :
    (Generate ⟨⟨"b/", 3, false⟩, [1], []⟩ [] "u").1
      = Except.ok ("b/" ++
          base64RawURL ((hmacSha256 [1] ([] ++
            utf8Bytes (optionsString [] ++ sourcePath false "u"))).take 3) ++
          (optionsString [] ++ sourcePath false "u")) :=
  claim_C9 ⟨⟨"b/", 3, false⟩, [1], []⟩ [] "u" (Or.inr ⟨by decide, rfl⟩)

/-- Claim C10: Generate removes from the map exactly the entries whose key
is the long name or the short code of a descriptor that emitted a segment
in the registry pass; every other entry, in particular each one emitted in
the leftover pass, is still present afterwards. -/
theorem claim_C10 (i : Imgproxy) (opts : OptMap) (uri : String) :
    (Generate i opts uri).2
      = opts.filter (fun e =>
          !((matchedDescs allOptions opts).any
            (fun o => e.1 == o.long || e.1 == o.short))) ∧
    ∀ k v : String, mlookup opts k = some v →
      (∀ o ∈ matchedDescs allOptions opts, o.long ≠ k ∧ o.short ≠ k) →
      mlookup (Generate i opts uri).2 k = some v := by
  have h2 : (Generate i opts uri).2 = (registryPass allOptions "/" opts).2 := rfl
  constructor
  · rw [h2]
    exact matchedDescs_snd_filter allOptions "/" opts
  · intro k v hv hmatch
    rw [h2, mlookup_registryPass allOptions "/" opts k, matched_any_false opts hmatch]
    simpa using hv

/-- Witness for C10: an unregistered entry survives Generate. -/
theorem claim_C10_witness :
    mlookup (Generate ⟨⟨"b/", 3, true⟩, [], []⟩ [("customtag", "x")] "u").2
      "customtag" = some "x" :=
  (claim_C10 ⟨⟨"b/", 3, true⟩, [], []⟩ [("customtag", "x")] "u").2
    "customtag" "x" (by decide) (by decide)
